import Mathlib

/-!
Verification of the incremental synchronization engine of `ftp-deploy`.

The definitions below are a shallow embedding of the Rust sources:
  - `src/tracking/files.rs` : `FileState`, `FilesTracking`
  - `src/tracking/mod.rs`   : `TrackingFileLoder::load_or_create` / `write`
  - `src/commands/deploy.rs`: `FileMode`, `FileWalk`, `FileUpdate`,
    `DeployCommand::{collect_files, upload_files, run}`
  - `src/ftp.rs`            : `FtpStreamExt::cwd_or_create_recursive`

The Rust `HashMap<PathBuf, _>` tables are embedded as association lists
with a "replace the existing key" insertion (`insertKey`), which models a
hash map up to iteration order; the snapshot invariant "a path appears at
most once" is the `NodupKeys` predicate.  The parallel directory walk is
embedded as a list of visit events folded over the shared table: the
walker guarantees each path is visited by exactly one worker, so a run of
the scanner is a sequence of `FileWalk::update` calls, one per visited
path (`runVisits`), in an arbitrary order.
-/

namespace FtpDeploy

/-- A relative path, as its list of components (embeds `PathBuf` keys). -/
abbrev FPath := List String

/-- `tracking/files.rs`: `enum FileState { File(String), Directory }`.
The `String` is the hex SHA-256 digest of the file's contents. -/
inductive FileState where
  | file (hash : String)
  | directory
deriving DecidableEq, Repr

/-- `commands/deploy.rs`: `enum FileMode { Untouched, Created, Updated, Deleted }`. -/
inductive FileMode where
  | untouched
  | created
  | updated
  | deleted
deriving DecidableEq, Repr

/-- `tracking/files.rs`: `FilesTracking.files : HashMap<PathBuf, FileState>`,
the persisted snapshot, as an association list. -/
abbrev FilesTracking := List (FPath × FileState)

/-- `commands/deploy.rs`: the shared table
`FileWalk.files : HashMap<PathBuf, (FileState, FileMode)>`. -/
abbrev FileWalk := List (FPath × FileState × FileMode)

/-- `HashMap::get` on an association list: the first entry with the key. -/
def lookupKey {α : Type} : List (FPath × α) → FPath → Option α
  | [], _ => none
  | e :: t, p => if e.1 = p then some e.2 else lookupKey t p

/-- `HashMap::insert` on an association list: replace the first entry with
the key in place, or append a new entry. -/
def insertKey {α : Type} : List (FPath × α) → FPath → α → List (FPath × α)
  | [], p, v => [(p, v)]
  | e :: t, p, v => if e.1 = p then (p, v) :: t else e :: insertKey t p v

/-- The keys of a table. -/
def keysOf {α : Type} (t : List (FPath × α)) : List FPath := t.map Prod.fst

/-- The snapshot invariant: a path appears at most once. -/
def NodupKeys {α : Type} (t : List (FPath × α)) : Prop := (keysOf t).Nodup

/-- `FileWalk::update` (deploy.rs:44-57): classify one visited path against
the table and insert the new entry.  If the path is absent the mode is
`Created`; if present, `Updated` when `force` is set or the recorded state
differs, else `Untouched`. -/
def FileWalk.update (t : FileWalk) (p : FPath) (state : FileState) (force : Bool) : FileWalk :=
  match lookupKey t p with
  | some old =>
      insertKey t p (state, if force = true ∨ ¬ old.1 = state then FileMode.updated else FileMode.untouched)
  | none => insertKey t p (state, FileMode.created)

/-- `impl From<FilesTracking> for FileWalk` (deploy.rs:60-72): seed the
working table from the snapshot, every entry pre-tagged `Deleted`. -/
def fileWalkFrom (ft : FilesTracking) : FileWalk :=
  ft.map (fun e => (e.1, e.2, FileMode.deleted))

/-- The scan phase of `DeployCommand::collect_files` (deploy.rs:177-201):
each visited path triggers one `FileWalk::update` with its freshly
computed state.  The visit list is the sequence of per-path callback
invocations of the parallel walker (each path exactly once). -/
def runVisits (force : Bool) : FileWalk → List (FPath × FileState) → FileWalk
  | t, [] => t
  | t, v :: vs => runVisits force (FileWalk.update t v.1 v.2 force) vs

/-- `DeployCommand::collect_files` (deploy.rs:160-207): seed from the
snapshot, then run every visit. -/
def collectFiles (ft : FilesTracking) (visits : List (FPath × FileState)) (force : Bool) : FileWalk :=
  runVisits force (fileWalkFrom ft) visits

/-- `commands/deploy.rs`: `enum FileUpdateType { CreateOrUpdate, Delete }`. -/
inductive FileUpdateType where
  | createOrUpdate
  | delete
deriving DecidableEq, Repr

/-- `FileUpdateType::get_verb` (deploy.rs:81-86). -/
def FileUpdateType.getVerb : FileUpdateType → String
  | .createOrUpdate => "create or update"
  | .delete => "delete"

/-- `commands/deploy.rs`: `enum FileType { File, Directory }`. -/
inductive FileType where
  | file
  | directory
deriving DecidableEq, Repr

/-- `impl From<&FileState> for FileType` (deploy.rs:95-102). -/
def FileType.ofState : FileState → FileType
  | .file _ => .file
  | .directory => .directory

/-- `commands/deploy.rs`: `struct FileUpdate` — one planned remote action. -/
structure FileUpdate where
  file : FPath
  fileType : FileType
  updateType : FileUpdateType
deriving DecidableEq, Repr

/-- `FileUpdate::from_files` (deploy.rs:112-129): project the final table
to the plan.  `Created | Updated ↦ CreateOrUpdate`, `Deleted ↦ Delete`,
`Untouched ↦` nothing. -/
def FileUpdate.fromFiles : FileWalk → List FileUpdate
  | [] => []
  | (p, state, m) :: t =>
      match m with
      | .created => ⟨p, FileType.ofState state, .createOrUpdate⟩ :: FileUpdate.fromFiles t
      | .updated => ⟨p, FileType.ofState state, .createOrUpdate⟩ :: FileUpdate.fromFiles t
      | .deleted => ⟨p, FileType.ofState state, .delete⟩ :: FileUpdate.fromFiles t
      | .untouched => FileUpdate.fromFiles t

/-- The new snapshot built in `DeployCommand::run` (deploy.rs:325-333):
every entry except those tagged `Deleted`, projected to `(path, state)`. -/
def newTracking : FileWalk → FilesTracking
  | [] => []
  | (p, state, m) :: t =>
      if m = FileMode.deleted then newTracking t else (p, state) :: newTracking t

/-- The mode `FileWalk::update` assigns, as a function of the looked-up
previous entry, the new state and the force flag (deploy.rs:44-57). -/
def modeFor (old : Option (FileState × FileMode)) (state : FileState) (force : Bool) : FileMode :=
  match old with
  | none => .created
  | some o => if force = true ∨ ¬ o.1 = state then .updated else .untouched

theorem lookupKey_insertKey {α : Type} (t : List (FPath × α)) (p q : FPath) (v : α) :
    lookupKey (insertKey t p v) q = if q = p then some v else lookupKey t q := by
  induction t with
  | nil =>
      by_cases h : q = p
      · subst h; simp [insertKey, lookupKey]
      · simp [insertKey, lookupKey, h, show ¬ p = q from fun hh => h hh.symm]
  | cons e t ih =>
      by_cases he : e.1 = p
      · by_cases hq : q = p
        · subst hq
          simp [insertKey, he, lookupKey]
        · have h1 : ¬ p = q := fun hh => hq hh.symm
          have h2 : ¬ e.1 = q := by rw [he]; exact h1
          simp [insertKey, he, lookupKey, h1, h2, hq]
      · by_cases hk : e.1 = q
        · have hq : ¬ q = p := fun hh => he (by rw [hk, hh])
          simp [insertKey, lookupKey, he, hk, hq]
        · simp [insertKey, lookupKey, he, hk, ih]

theorem lookupKey_update (t : FileWalk) (p q : FPath) (state : FileState) (force : Bool) :
    lookupKey (FileWalk.update t p state force) q =
      if q = p then some (state, modeFor (lookupKey t p) state force) else lookupKey t q := by
  unfold FileWalk.update modeFor
  cases h : lookupKey t p with
  | none => simp [lookupKey_insertKey]
  | some old => simp [lookupKey_insertKey]

/-- C2.  Per-path classification on visit (`FileWalk::update`,
deploy.rs:44-57): a path absent from the table is inserted as `Created`;
a present path with unchanged state and `force = false` becomes
`Untouched`; a present path whose state differs, or any present path when
`force = true`, becomes `Updated`.  In every case the entry's recorded
state becomes the newly computed one. -/
theorem c2_update_classification (t : FileWalk) (p : FPath) (state : FileState) (force : Bool) :
    (lookupKey t p = none →
      lookupKey (FileWalk.update t p state force) p = some (state, FileMode.created))
    ∧ (∀ old m, lookupKey t p = some (old, m) → old = state → force = false →
      lookupKey (FileWalk.update t p state force) p = some (state, FileMode.untouched))
    ∧ (∀ old m, lookupKey t p = some (old, m) → (¬ old = state ∨ force = true) →
      lookupKey (FileWalk.update t p state force) p = some (state, FileMode.updated)) := by
  refine ⟨?_, ?_, ?_⟩
  · intro h
    rw [lookupKey_update, if_pos rfl, h]
    rfl
  · intro old m h hstate hforce
    rw [lookupKey_update, if_pos rfl, h]
    simp [modeFor, hstate, hforce]
  · intro old m h hdiff
    rw [lookupKey_update, if_pos rfl, h]
    rcases hdiff with hdiff | hdiff <;> simp [modeFor, hdiff]

/-- C2 witness: the three cases at concrete inputs.  An empty table gets a
`Created` entry; a table tracking `a.txt` with the same hash and
`force = false` gets `Untouched`; with a changed hash it gets `Updated`. -/
theorem c2_update_classification_witness :
    lookupKey (FileWalk.update [] ["a.txt"] (FileState.file "h1") false) ["a.txt"]
        = some (FileState.file "h1", FileMode.created)
    ∧ lookupKey (FileWalk.update [(["a.txt"], FileState.file "h1", FileMode.deleted)]
          ["a.txt"] (FileState.file "h1") false) ["a.txt"]
        = some (FileState.file "h1", FileMode.untouched)
    ∧ lookupKey (FileWalk.update [(["a.txt"], FileState.file "h1", FileMode.deleted)]
          ["a.txt"] (FileState.file "h2") false) ["a.txt"]
        = some (FileState.file "h2", FileMode.updated) :=
  ⟨(c2_update_classification [] ["a.txt"] (FileState.file "h1") false).1 rfl,
   (c2_update_classification [(["a.txt"], FileState.file "h1", FileMode.deleted)]
      ["a.txt"] (FileState.file "h1") false).2.1 (FileState.file "h1") FileMode.deleted rfl rfl rfl,
   (c2_update_classification [(["a.txt"], FileState.file "h1", FileMode.deleted)]
      ["a.txt"] (FileState.file "h2") false).2.2 (FileState.file "h1") FileMode.deleted rfl
      (Or.inl (by simp))⟩

theorem filterKey_nil {α : Type} (t : List (FPath × α)) (p : FPath) (h : ¬ p ∈ keysOf t) :
    t.filter (fun e => decide (e.1 = p)) = [] := by
  induction t with
  | nil => rfl
  | cons e t ih =>
      rw [show keysOf (e :: t) = e.1 :: keysOf t from rfl, List.mem_cons] at h
      push_neg at h
      have he : ¬ e.1 = p := fun hh => h.1 hh.symm
      rw [List.filter_cons, if_neg (by simp [he])]
      exact ih h.2

theorem filterKey_of_nodup {α : Type} (t : List (FPath × α)) (p : FPath) (v : α)
    (hnd : NodupKeys t) (h : lookupKey t p = some v) :
    t.filter (fun e => decide (e.1 = p)) = [(p, v)] := by
  induction t with
  | nil => simp [lookupKey] at h
  | cons e t ih =>
      have hnd' : ¬ e.1 ∈ keysOf t ∧ (keysOf t).Nodup := by
        rw [NodupKeys, show keysOf (e :: t) = e.1 :: keysOf t from rfl, List.nodup_cons] at hnd
        exact hnd
      by_cases he : e.1 = p
      · rw [lookupKey, if_pos he] at h
        have hv : e.2 = v := Option.some.inj h
        have hmem : ¬ p ∈ keysOf t := he ▸ hnd'.1
        have hev : e = (p, v) := by rw [← he, ← hv]
        rw [List.filter_cons, if_pos (by simp [he]), hev, filterKey_nil t p hmem]
      · rw [lookupKey, if_neg he] at h
        rw [List.filter_cons, if_neg (by simp [he])]
        exact ih hnd'.2 h

theorem filterKey_insertKey {α : Type} (t : List (FPath × α)) (p q : FPath) (v : α)
    (h : ¬ q = p) :
    (insertKey t q v).filter (fun e => decide (e.1 = p)) = t.filter (fun e => decide (e.1 = p)) := by
  induction t with
  | nil => simp [insertKey, List.filter, h]
  | cons e t ih =>
      by_cases he : e.1 = q
      · have hp : ¬ e.1 = p := by rw [he]; exact h
        simp [insertKey, he, List.filter, h, hp]
      · simp only [insertKey, if_neg he]
        by_cases hp : e.1 = p <;> simp [List.filter, hp, ih]

theorem filterKey_update (t : FileWalk) (p q : FPath) (state : FileState) (force : Bool)
    (h : ¬ q = p) :
    (FileWalk.update t q state force).filter (fun e => decide (e.1 = p))
      = t.filter (fun e => decide (e.1 = p)) := by
  unfold FileWalk.update
  cases lookupKey t q <;> exact filterKey_insertKey t p q _ h

theorem filterKey_runVisits (visits : List (FPath × FileState)) (t : FileWalk) (p : FPath)
    (force : Bool) (h : ¬ p ∈ keysOf visits) :
    (runVisits force t visits).filter (fun e => decide (e.1 = p))
      = t.filter (fun e => decide (e.1 = p)) := by
  induction visits generalizing t with
  | nil => rfl
  | cons v vs ih =>
      rw [show keysOf (v :: vs) = v.1 :: keysOf vs from rfl, List.mem_cons] at h
      push_neg at h
      rw [runVisits, ih _ h.2, filterKey_update t p v.1 v.2 force (fun hh => h.1 hh.symm)]

theorem filterKey_fileWalkFrom (ft : FilesTracking) (p : FPath) :
    (fileWalkFrom ft).filter (fun e => decide (e.1 = p))
      = fileWalkFrom (ft.filter (fun e => decide (e.1 = p))) := by
  induction ft with
  | nil => rfl
  | cons e t ih =>
      by_cases he : e.1 = p <;> simp [fileWalkFrom, List.filter, he, ih] <;>
        simpa [fileWalkFrom] using ih

theorem fromFiles_filterKey (t : FileWalk) (p : FPath) :
    (FileUpdate.fromFiles t).filter (fun u => decide (u.file = p))
      = FileUpdate.fromFiles (t.filter (fun e => decide (e.1 = p))) := by
  induction t with
  | nil => rfl
  | cons e t ih =>
      obtain ⟨q, state, m⟩ := e
      by_cases hq : q = p <;>
        cases m <;> simp [FileUpdate.fromFiles, List.filter, hq, ih]

/-- The final table's entries at a path tracked before and never visited:
exactly the seeded `Deleted` entry with the snapshot's recorded state. -/
theorem plan_filter_at_unvisited (ft : FilesTracking) (visits : List (FPath × FileState))
    (force : Bool) (p : FPath) (s : FileState)
    (hnd : NodupKeys ft) (hmem : lookupKey ft p = some s) (hnv : ¬ p ∈ keysOf visits) :
    (FileUpdate.fromFiles (collectFiles ft visits force)).filter (fun u => decide (u.file = p))
      = [⟨p, FileType.ofState s, FileUpdateType.delete⟩] := by
  rw [fromFiles_filterKey, collectFiles, filterKey_runVisits visits _ p force hnv,
    filterKey_fileWalkFrom, filterKey_of_nodup ft p s hnd hmem]
  rfl

theorem filter_conj_of_filter_singleton (l : List FileUpdate) (p : FPath) (x : FileUpdate)
    (Q : FileUpdate → Prop) [DecidablePred Q]
    (h : l.filter (fun u => decide (u.file = p)) = [x]) :
    l.filter (fun u => decide (u.file = p ∧ Q u)) = if Q x then [x] else [] := by
  induction l with
  | nil => simp [List.filter] at h
  | cons a t ih =>
      by_cases ha : a.file = p
      · rw [List.filter, decide_eq_true (by exact ha), List.cons.injEq] at h
        obtain ⟨hax, htail⟩ := h
        have htail' : ∀ Q' : FileUpdate → Prop, ∀ _ : DecidablePred Q',
            t.filter (fun u => decide (u.file = p ∧ Q' u)) = [] := by
          intro Q' _
          have : ∀ u ∈ t, ¬ (u.file = p ∧ Q' u) := by
            intro u hu hc
            have : u ∈ t.filter (fun u => decide (u.file = p)) :=
              List.mem_filter.2 ⟨hu, decide_eq_true hc.1⟩
            simp [htail] at this
          exact List.filter_eq_nil_iff.2 (by intro u hu; simpa using this u hu)
        by_cases hQ : Q a
        · rw [List.filter, decide_eq_true (by exact ⟨ha, hQ⟩), htail' Q inferInstance, hax,
            if_pos (hax ▸ hQ)]
        · rw [List.filter, decide_eq_false (by simp [hQ]), htail' Q inferInstance,
            if_neg (hax ▸ hQ)]
      · rw [List.filter, decide_eq_false (by exact ha)] at h
        rw [List.filter, decide_eq_false (by simp [ha])]
        exact ih h

/-- C1.  Mark-and-sweep deletion detection is complete and exact: the
working table is seeded from the snapshot with every entry tagged
`Deleted` (`fileWalkFrom`, deploy.rs:60-72), and a path `p` tracked by the
prior snapshot and never visited by the walk keeps that tag, so the plan
(`FileUpdate::from_files`, deploy.rs:112-129) holds exactly one `Delete`
action for `p` and no `CreateOrUpdate` for `p`. -/
theorem c1_deletion_detection (ft : FilesTracking) (visits : List (FPath × FileState))
    (force : Bool) (p : FPath) (s : FileState)
    (hnd : NodupKeys ft) (hmem : lookupKey ft p = some s) (hnv : ¬ p ∈ keysOf visits) :
    ((FileUpdate.fromFiles (collectFiles ft visits force)).filter
        (fun u => decide (u.file = p ∧ u.updateType = FileUpdateType.delete))).length = 1
    ∧ ((FileUpdate.fromFiles (collectFiles ft visits force)).filter
        (fun u => decide (u.file = p ∧ u.updateType = FileUpdateType.createOrUpdate))).length = 0 := by
  have h := plan_filter_at_unvisited ft visits force p s hnd hmem hnv
  constructor
  · rw [filter_conj_of_filter_singleton _ p _ (fun u => u.updateType = FileUpdateType.delete) h]
    simp
  · rw [filter_conj_of_filter_singleton _ p _
      (fun u => u.updateType = FileUpdateType.createOrUpdate) h]
    simp

/-- C1 witness: snapshot tracking `a.txt`, a walk that visits only
`b.txt`: the plan holds exactly one `Delete` for `a.txt` and no
`CreateOrUpdate` for it. -/
theorem c1_deletion_detection_witness :
    ((FileUpdate.fromFiles (collectFiles [(["a.txt"], FileState.file "h1")]
        [(["b.txt"], FileState.file "h2")] false)).filter
        (fun u => decide (u.file = ["a.txt"] ∧ u.updateType = FileUpdateType.delete))).length = 1
    ∧ ((FileUpdate.fromFiles (collectFiles [(["a.txt"], FileState.file "h1")]
        [(["b.txt"], FileState.file "h2")] false)).filter
        (fun u => decide (u.file = ["a.txt"] ∧ u.updateType = FileUpdateType.createOrUpdate))).length = 0 :=
  c1_deletion_detection [(["a.txt"], FileState.file "h1")] [(["b.txt"], FileState.file "h2")]
    false ["a.txt"] (FileState.file "h1") (List.nodup_singleton (["a.txt"] : FPath)) rfl
    (by decide)

theorem fromFiles_eq_filterMap (t : FileWalk) :
    FileUpdate.fromFiles t = t.filterMap (fun e =>
      match e.2.2 with
      | FileMode.untouched => none
      | FileMode.created => some ⟨e.1, FileType.ofState e.2.1, FileUpdateType.createOrUpdate⟩
      | FileMode.updated => some ⟨e.1, FileType.ofState e.2.1, FileUpdateType.createOrUpdate⟩
      | FileMode.deleted => some ⟨e.1, FileType.ofState e.2.1, FileUpdateType.delete⟩) := by
  induction t with
  | nil => rfl
  | cons e t ih =>
      obtain ⟨p, s, m⟩ := e
      cases m <;> simp [FileUpdate.fromFiles, List.filterMap_cons, ih]

theorem mem_fromFiles (t : FileWalk) (u : FileUpdate) :
    u ∈ FileUpdate.fromFiles t ↔
      ∃ s m, (u.file, s, m) ∈ t ∧ u.fileType = FileType.ofState s ∧
        (((m = FileMode.created ∨ m = FileMode.updated)
            ∧ u.updateType = FileUpdateType.createOrUpdate)
          ∨ (m = FileMode.deleted ∧ u.updateType = FileUpdateType.delete)) := by
  obtain ⟨uf, uft, uut⟩ := u
  rw [fromFiles_eq_filterMap, List.mem_filterMap]
  constructor
  · rintro ⟨⟨p, s, m⟩, he, hfe⟩
    cases m
    · exact absurd hfe (by simp)
    · cases Option.some.inj hfe
      exact ⟨s, FileMode.created, he, rfl, Or.inl ⟨Or.inl rfl, rfl⟩⟩
    · cases Option.some.inj hfe
      exact ⟨s, FileMode.updated, he, rfl, Or.inl ⟨Or.inr rfl, rfl⟩⟩
    · cases Option.some.inj hfe
      exact ⟨s, FileMode.deleted, he, rfl, Or.inr ⟨rfl, rfl⟩⟩
  · rintro ⟨s, m, hmem, hft, ⟨hm | hm, hut⟩ | ⟨hm, hut⟩⟩ <;>
      subst hm <;> subst hut <;> subst hft
    · exact ⟨(uf, s, FileMode.created), hmem, rfl⟩
    · exact ⟨(uf, s, FileMode.updated), hmem, rfl⟩
    · exact ⟨(uf, s, FileMode.deleted), hmem, rfl⟩

theorem mem_newTracking (t : FileWalk) (p : FPath) (s : FileState) :
    (p, s) ∈ newTracking t ↔ ∃ m, (p, s, m) ∈ t ∧ ¬ m = FileMode.deleted := by
  induction t with
  | nil => simp [newTracking]
  | cons e t ih =>
      obtain ⟨q, s0, m0⟩ := e
      by_cases hm : m0 = FileMode.deleted
      · subst hm
        rw [show newTracking ((q, s0, FileMode.deleted) :: t)
            = newTracking t from by rw [newTracking, if_pos rfl], ih]
        constructor
        · rintro ⟨m, hmem, hne⟩
          exact ⟨m, List.mem_cons_of_mem _ hmem, hne⟩
        · rintro ⟨m, hmem, hne⟩
          rcases List.mem_cons.1 hmem with h | h
          · exact absurd (congrArg (fun x => x.2.2) h) hne
          · exact ⟨m, h, hne⟩
      · rw [show newTracking ((q, s0, m0) :: t)
            = (q, s0) :: newTracking t from by rw [newTracking, if_neg hm], List.mem_cons, ih]
        constructor
        · rintro (h | ⟨m, hmem, hne⟩)
          · refine ⟨m0, ?_, hm⟩
            rw [show p = q from congrArg Prod.fst h, show s = s0 from congrArg Prod.snd h]
            exact List.mem_cons_self _ _
          · exact ⟨m, List.mem_cons_of_mem _ hmem, hne⟩
        · rintro ⟨m, hmem, hne⟩
          rcases List.mem_cons.1 hmem with h | h
          · exact Or.inl (by
              rw [show p = q from congrArg Prod.fst h,
                show s = s0 from congrArg (fun x => x.2.1) h])
          · exact Or.inr ⟨m, h, hne⟩

/-- C3.  The planner is a pure projection of the final working table
(`FileUpdate::from_files`, deploy.rs:112-129, and the snapshot rebuild in
`DeployCommand::run`, deploy.rs:324-333): a plan item exists exactly for
the entries tagged `Created`/`Updated` (as `CreateOrUpdate`) and `Deleted`
(as `Delete`), never for `Untouched` ones, with the file type taken from
the entry's state; and the new snapshot holds exactly the entries whose
mode is not `Deleted`, projected to `(path, state)`. -/
theorem c3_planner_projection (t : FileWalk) :
    (∀ u, u ∈ FileUpdate.fromFiles t ↔
      ∃ s m, (u.file, s, m) ∈ t ∧ u.fileType = FileType.ofState s ∧
        (((m = FileMode.created ∨ m = FileMode.updated)
            ∧ u.updateType = FileUpdateType.createOrUpdate)
          ∨ (m = FileMode.deleted ∧ u.updateType = FileUpdateType.delete)))
    ∧ (∀ p s, (p, s) ∈ newTracking t ↔ ∃ m, (p, s, m) ∈ t ∧ ¬ m = FileMode.deleted) :=
  ⟨fun u => mem_fromFiles t u, fun p s => mem_newTracking t p s⟩

theorem lookupKey_fileWalkFrom (ft : FilesTracking) (p : FPath) :
    lookupKey (fileWalkFrom ft) p = (lookupKey ft p).map (fun s => (s, FileMode.deleted)) := by
  induction ft with
  | nil => rfl
  | cons e t ih =>
      by_cases he : e.1 = p
      · simp [fileWalkFrom, lookupKey, he]
      · rw [show fileWalkFrom (e :: t) = (e.1, e.2, FileMode.deleted) :: fileWalkFrom t from rfl,
          lookupKey, if_neg he, ih, lookupKey, if_neg he]

theorem lookupKey_runVisits_of_not_mem (visits : List (FPath × FileState)) (t : FileWalk)
    (p : FPath) (force : Bool) (h : ¬ p ∈ keysOf visits) :
    lookupKey (runVisits force t visits) p = lookupKey t p := by
  induction visits generalizing t with
  | nil => rfl
  | cons v vs ih =>
      rw [show keysOf (v :: vs) = v.1 :: keysOf vs from rfl, List.mem_cons] at h
      push_neg at h
      rw [runVisits, ih _ h.2, lookupKey_update, if_neg h.1]

theorem lookupKey_runVisits_of_mem (visits : List (FPath × FileState)) (t : FileWalk)
    (p : FPath) (s : FileState) (force : Bool)
    (hnd : NodupKeys visits) (hmem : (p, s) ∈ visits) :
    lookupKey (runVisits force t visits) p = some (s, modeFor (lookupKey t p) s force) := by
  induction visits generalizing t with
  | nil => exact absurd hmem (List.not_mem_nil _)
  | cons v vs ih =>
      have hnd' : ¬ v.1 ∈ keysOf vs ∧ (keysOf vs).Nodup := by
        rw [NodupKeys, show keysOf (v :: vs) = v.1 :: keysOf vs from rfl, List.nodup_cons] at hnd
        exact hnd
      rcases List.mem_cons.1 hmem with h | h
      · have hp : v.1 = p := (congrArg Prod.fst h).symm
        have hs : v.2 = s := (congrArg Prod.snd h).symm
        rw [runVisits, lookupKey_runVisits_of_not_mem vs _ p force (hp ▸ hnd'.1),
          lookupKey_update, if_pos hp.symm, hp, hs]
      · have hne : ¬ p = v.1 := by
          intro hh
          exact hnd'.1 (hh ▸ List.mem_map_of_mem Prod.fst h)
        rw [runVisits, ih _ hnd'.2 h, lookupKey_update, if_neg hne]

theorem lookupKey_none_of_not_mem {α : Type} (t : List (FPath × α)) (p : FPath)
    (h : ¬ p ∈ keysOf t) : lookupKey t p = none := by
  induction t with
  | nil => rfl
  | cons e t ih =>
      rw [show keysOf (e :: t) = e.1 :: keysOf t from rfl, List.mem_cons] at h
      push_neg at h
      rw [lookupKey, if_neg (fun hh => h.1 hh.symm)]
      exact ih h.2

theorem mem_keysOf_of_lookupKey {α : Type} (t : List (FPath × α)) (p : FPath) (v : α)
    (h : lookupKey t p = some v) : p ∈ keysOf t := by
  by_contra hc
  rw [lookupKey_none_of_not_mem t p hc] at h
  exact Option.noConfusion h

theorem lookupKey_mem {α : Type} (t : List (FPath × α)) (p : FPath) (v : α)
    (h : lookupKey t p = some v) : (p, v) ∈ t := by
  induction t with
  | nil => exact Option.noConfusion h
  | cons e t ih =>
      by_cases he : e.1 = p
      · rw [lookupKey, if_pos he] at h
        have := Option.some.inj h
        exact List.mem_cons.2 (Or.inl (by rw [← he, ← this]))
      · rw [lookupKey, if_neg he] at h
        exact List.mem_cons_of_mem _ (ih h)

theorem lookupKey_of_mem_nodup {α : Type} (t : List (FPath × α)) (p : FPath) (v : α)
    (hnd : NodupKeys t) (h : (p, v) ∈ t) : lookupKey t p = some v := by
  induction t with
  | nil => exact absurd h (List.not_mem_nil _)
  | cons e t ih =>
      have hnd' : ¬ e.1 ∈ keysOf t ∧ (keysOf t).Nodup := by
        rw [NodupKeys, show keysOf (e :: t) = e.1 :: keysOf t from rfl, List.nodup_cons] at hnd
        exact hnd
      rcases List.mem_cons.1 h with h | h
      · rw [lookupKey, if_pos (congrArg Prod.fst h).symm]
        exact congrArg (fun x => some x.2) h.symm
      · have hne : ¬ e.1 = p := by
          intro hh
          exact hnd'.1 (hh ▸ List.mem_map_of_mem Prod.fst h)
        rw [lookupKey, if_neg hne]
        exact ih hnd'.2 h

theorem mem_keysOf_insertKey {α : Type} (t : List (FPath × α)) (p q : FPath) (v : α)
    (h : q ∈ keysOf (insertKey t p v)) : q = p ∨ q ∈ keysOf t := by
  induction t with
  | nil =>
      rcases List.mem_cons.1 h with h | h
      · exact Or.inl h
      · exact absurd h (List.not_mem_nil _)
  | cons e t ih =>
      by_cases he : e.1 = p
      · rw [show insertKey (e :: t) p v = (p, v) :: t from by rw [insertKey, if_pos he]] at h
        rcases List.mem_cons.1 h with h | h
        · exact Or.inl h
        · exact Or.inr (List.mem_cons_of_mem _ h)
      · rw [show insertKey (e :: t) p v = e :: insertKey t p v
            from by rw [insertKey, if_neg he]] at h
        rcases List.mem_cons.1 h with h | h
        · exact Or.inr (List.mem_cons.2 (Or.inl h))
        · rcases ih h with h | h
          · exact Or.inl h
          · exact Or.inr (List.mem_cons_of_mem _ h)

theorem nodupKeys_insertKey {α : Type} (t : List (FPath × α)) (p : FPath) (v : α)
    (hnd : NodupKeys t) : NodupKeys (insertKey t p v) := by
  induction t with
  | nil => exact List.nodup_singleton p
  | cons e t ih =>
      have hnd' : ¬ e.1 ∈ keysOf t ∧ (keysOf t).Nodup := by
        rw [NodupKeys, show keysOf (e :: t) = e.1 :: keysOf t from rfl, List.nodup_cons] at hnd
        exact hnd
      by_cases he : e.1 = p
      · rw [NodupKeys, show insertKey (e :: t) p v = (p, v) :: t from by rw [insertKey, if_pos he],
          show keysOf ((p, v) :: t) = p :: keysOf t from rfl, List.nodup_cons]
        exact ⟨he ▸ hnd'.1, hnd'.2⟩
      · rw [NodupKeys, show insertKey (e :: t) p v = e :: insertKey t p v
            from by rw [insertKey, if_neg he],
          show keysOf (e :: insertKey t p v) = e.1 :: keysOf (insertKey t p v) from rfl,
          List.nodup_cons]
        refine ⟨fun hc => ?_, ih hnd'.2⟩
        rcases mem_keysOf_insertKey t p e.1 v hc with h | h
        · exact he h
        · exact hnd'.1 h

theorem nodupKeys_update (t : FileWalk) (p : FPath) (state : FileState) (force : Bool)
    (hnd : NodupKeys t) : NodupKeys (FileWalk.update t p state force) := by
  unfold FileWalk.update
  cases lookupKey t p <;> exact nodupKeys_insertKey t p _ hnd

theorem mem_keysOf_update (t : FileWalk) (p q : FPath) (state : FileState) (force : Bool)
    (h : q ∈ keysOf (FileWalk.update t p state force)) : q = p ∨ q ∈ keysOf t := by
  unfold FileWalk.update at h
  cases hl : lookupKey t p <;> rw [hl] at h <;> exact mem_keysOf_insertKey t p q _ h

theorem nodupKeys_runVisits (visits : List (FPath × FileState)) (t : FileWalk) (force : Bool)
    (hnd : NodupKeys t) : NodupKeys (runVisits force t visits) := by
  induction visits generalizing t with
  | nil => exact hnd
  | cons v vs ih => exact ih _ (nodupKeys_update t v.1 v.2 force hnd)

theorem mem_keysOf_runVisits (visits : List (FPath × FileState)) (t : FileWalk) (q : FPath)
    (force : Bool) (h : q ∈ keysOf (runVisits force t visits)) :
    q ∈ keysOf t ∨ q ∈ keysOf visits := by
  induction visits generalizing t with
  | nil => exact Or.inl h
  | cons v vs ih =>
      rcases ih _ h with h | h
      · rcases mem_keysOf_update t v.1 q v.2 force h with h | h
        · exact Or.inr (h ▸ List.mem_cons_self _ _)
        · exact Or.inl h
      · exact Or.inr (List.mem_cons_of_mem _ h)

theorem keysOf_fileWalkFrom (ft : FilesTracking) : keysOf (fileWalkFrom ft) = keysOf ft := by
  induction ft with
  | nil => rfl
  | cons e t ih =>
      rw [show fileWalkFrom (e :: t) = (e.1, e.2, FileMode.deleted) :: fileWalkFrom t from rfl,
        show keysOf ((e.1, e.2, FileMode.deleted) :: fileWalkFrom t)
          = e.1 :: keysOf (fileWalkFrom t) from rfl,
        ih, show keysOf (e :: t) = e.1 :: keysOf t from rfl]

theorem mem_keysOf_newTracking (t : FileWalk) (q : FPath)
    (h : q ∈ keysOf (newTracking t)) : q ∈ keysOf t := by
  induction t with
  | nil => exact h
  | cons e t ih =>
      obtain ⟨p, s0, m0⟩ := e
      by_cases hm : m0 = FileMode.deleted
      · rw [show newTracking ((p, s0, m0) :: t) = newTracking t
            from by rw [newTracking, if_pos hm]] at h
        exact List.mem_cons_of_mem _ (ih h)
      · rw [show newTracking ((p, s0, m0) :: t) = (p, s0) :: newTracking t
            from by rw [newTracking, if_neg hm]] at h
        rcases List.mem_cons.1 h with h | h
        · exact h ▸ List.mem_cons_self _ _
        · exact List.mem_cons_of_mem _ (ih h)

theorem nodupKeys_newTracking (t : FileWalk) (hnd : NodupKeys t) :
    NodupKeys (newTracking t) := by
  induction t with
  | nil => exact hnd
  | cons e t ih =>
      obtain ⟨p, s0, m0⟩ := e
      have hnd' : ¬ p ∈ keysOf t ∧ (keysOf t).Nodup := by
        rw [NodupKeys, show keysOf ((p, s0, m0) :: t) = p :: keysOf t from rfl,
          List.nodup_cons] at hnd
        exact hnd
      by_cases hm : m0 = FileMode.deleted
      · rw [show newTracking ((p, s0, m0) :: t) = newTracking t
            from by rw [newTracking, if_pos hm]]
        exact ih hnd'.2
      · rw [NodupKeys, show newTracking ((p, s0, m0) :: t) = (p, s0) :: newTracking t
            from by rw [newTracking, if_neg hm],
          show keysOf ((p, s0) :: newTracking t) = p :: keysOf (newTracking t) from rfl,
          List.nodup_cons]
        exact ⟨fun hc => hnd'.1 (mem_keysOf_newTracking t p hc), ih hnd'.2⟩

theorem lookupKey_newTracking (t : FileWalk) (p : FPath) (hnd : NodupKeys t) :
    lookupKey (newTracking t) p
      = (lookupKey t p).bind
          (fun v => if v.2 = FileMode.deleted then none else some v.1) := by
  induction t with
  | nil => rfl
  | cons e t ih =>
      obtain ⟨q, s0, m0⟩ := e
      have hnd' : ¬ q ∈ keysOf t ∧ (keysOf t).Nodup := by
        rw [NodupKeys, show keysOf ((q, s0, m0) :: t) = q :: keysOf t from rfl,
          List.nodup_cons] at hnd
        exact hnd
      by_cases he : q = p
      · subst he
        rw [show lookupKey ((q, s0, m0) :: t) q = some (s0, m0)
            from by rw [lookupKey, if_pos rfl]]
        by_cases hm : m0 = FileMode.deleted
        · rw [show newTracking ((q, s0, m0) :: t) = newTracking t
              from by rw [newTracking, if_pos hm],
            lookupKey_none_of_not_mem (newTracking t) q
              (fun hc => hnd'.1 (mem_keysOf_newTracking t q hc))]
          simp [hm]
        · rw [show newTracking ((q, s0, m0) :: t) = (q, s0) :: newTracking t
              from by rw [newTracking, if_neg hm],
            lookupKey, if_pos rfl]
          simp [hm]
      · rw [show lookupKey ((q, s0, m0) :: t) p = lookupKey t p
            from by rw [lookupKey, if_neg he]]
        by_cases hm : m0 = FileMode.deleted
        · rw [show newTracking ((q, s0, m0) :: t) = newTracking t
              from by rw [newTracking, if_pos hm]]
          exact ih hnd'.2
        · rw [show newTracking ((q, s0, m0) :: t) = (q, s0) :: newTracking t
              from by rw [newTracking, if_neg hm],
            lookupKey, if_neg he]
          exact ih hnd'.2

theorem modeFor_ne_deleted (old : Option (FileState × FileMode)) (state : FileState)
    (force : Bool) : ¬ modeFor old state force = FileMode.deleted := by
  cases old with
  | none => simp [modeFor]
  | some o => by_cases h : force = true ∨ ¬ o.1 = state <;> simp [modeFor, h]

theorem mem_of_mem_keysOf {α : Type} (t : List (FPath × α)) (p : FPath) (h : p ∈ keysOf t) :
    ∃ v, (p, v) ∈ t := by
  obtain ⟨e, he, he1⟩ := List.mem_map.1 h
  exact ⟨e.2, by rw [← he1]; exact he⟩

/-- After a scan, the rebuilt snapshot records every visited path with the
state the visit computed for it. -/
theorem lookup_newTracking_collect_of_visit (ft : FilesTracking)
    (visits : List (FPath × FileState)) (force : Bool) (p : FPath) (s : FileState)
    (hft : NodupKeys ft) (hvs : NodupKeys visits) (hmem : (p, s) ∈ visits) :
    lookupKey (newTracking (collectFiles ft visits force)) p = some s := by
  have hndseed : NodupKeys (fileWalkFrom ft) := by
    rw [NodupKeys, keysOf_fileWalkFrom]; exact hft
  have hnd1 : NodupKeys (collectFiles ft visits force) :=
    nodupKeys_runVisits visits _ force hndseed
  have h1 : lookupKey (collectFiles ft visits force) p
      = some (s, modeFor (lookupKey (fileWalkFrom ft) p) s force) :=
    lookupKey_runVisits_of_mem visits _ p s force hvs hmem
  rw [lookupKey_newTracking _ p hnd1, h1, Option.some_bind,
    if_neg (modeFor_ne_deleted _ _ _)]

/-- After a scan, any path the rebuilt snapshot records was visited, with
the recorded state being the visit's state. -/
theorem visit_of_lookup_newTracking_collect (ft : FilesTracking)
    (visits : List (FPath × FileState)) (force : Bool) (p : FPath) (s : FileState)
    (hft : NodupKeys ft) (hvs : NodupKeys visits)
    (h : lookupKey (newTracking (collectFiles ft visits force)) p = some s) :
    (p, s) ∈ visits := by
  have hndseed : NodupKeys (fileWalkFrom ft) := by
    rw [NodupKeys, keysOf_fileWalkFrom]; exact hft
  have hnd1 : NodupKeys (collectFiles ft visits force) :=
    nodupKeys_runVisits visits _ force hndseed
  rw [lookupKey_newTracking _ p hnd1] at h
  cases hl : lookupKey (collectFiles ft visits force) p with
  | none => rw [hl] at h; exact absurd h (by simp)
  | some v =>
      rw [hl, Option.some_bind] at h
      by_cases hm : v.2 = FileMode.deleted
      · rw [if_pos hm] at h; exact absurd h (by simp)
      · rw [if_neg hm] at h
        have hv1 : v.1 = s := Option.some.inj h
        by_cases hp : p ∈ keysOf visits
        · obtain ⟨s0, hs0⟩ := mem_of_mem_keysOf visits p hp
          have h2 : lookupKey (collectFiles ft visits force) p
              = some (s0, modeFor (lookupKey (fileWalkFrom ft) p) s0 force) :=
            lookupKey_runVisits_of_mem visits _ p s0 force hvs hs0
          have hv : v = (s0, modeFor (lookupKey (fileWalkFrom ft) p) s0 force) :=
            Option.some.inj (hl.symm.trans h2)
          have : s = s0 := by rw [← hv1, hv]
          exact this ▸ hs0
        · have h2 : lookupKey (collectFiles ft visits force) p
              = lookupKey (fileWalkFrom ft) p :=
            lookupKey_runVisits_of_not_mem visits _ p force hp
          rw [h2, lookupKey_fileWalkFrom] at hl
          cases hfp : lookupKey ft p with
          | none => rw [hfp] at hl; exact absurd hl (by simp)
          | some s1 =>
              rw [hfp, Option.map_some'] at hl
              have hv := Option.some.inj hl
              exact absurd (congrArg Prod.snd hv).symm hm

theorem fromFiles_eq_nil (t : FileWalk) (h : ∀ e ∈ t, e.2.2 = FileMode.untouched) :
    FileUpdate.fromFiles t = [] := by
  induction t with
  | nil => rfl
  | cons e t ih =>
      obtain ⟨p, s, m⟩ := e
      have hm : m = FileMode.untouched := h (p, s, m) (List.mem_cons_self _ _)
      subst hm
      rw [show FileUpdate.fromFiles ((p, s, FileMode.untouched) :: t)
          = FileUpdate.fromFiles t from rfl]
      exact ih (fun e he => h e (List.mem_cons_of_mem _ he))

/-- C4.  Idempotence (deploy.rs:44-57 together with deploy.rs:283-346):
with `force = false`, scanning the same visits against the snapshot the
first run persisted classifies every entry `Untouched`, so the second
run's plan is empty, and the snapshot the second run persists agrees with
the first run's snapshot on every path. -/
theorem c4_idempotence (ft : FilesTracking) (visits : List (FPath × FileState))
    (hft : NodupKeys ft) (hvs : NodupKeys visits) :
    FileUpdate.fromFiles
        (collectFiles (newTracking (collectFiles ft visits false)) visits false) = []
    ∧ ∀ p, lookupKey (newTracking
          (collectFiles (newTracking (collectFiles ft visits false)) visits false)) p
        = lookupKey (newTracking (collectFiles ft visits false)) p := by
  have hndseed1 : NodupKeys (fileWalkFrom ft) := by
    rw [NodupKeys, keysOf_fileWalkFrom]; exact hft
  have hnd1 : NodupKeys (collectFiles ft visits false) :=
    nodupKeys_runVisits visits _ false hndseed1
  have hndsnap : NodupKeys (newTracking (collectFiles ft visits false)) :=
    nodupKeys_newTracking _ hnd1
  have hndseed2 : NodupKeys (fileWalkFrom (newTracking (collectFiles ft visits false))) := by
    rw [NodupKeys, keysOf_fileWalkFrom]; exact hndsnap
  have hnd2 : NodupKeys
      (collectFiles (newTracking (collectFiles ft visits false)) visits false) :=
    nodupKeys_runVisits visits _ false hndseed2
  have keysub : ∀ q, q ∈ keysOf
      (collectFiles (newTracking (collectFiles ft visits false)) visits false) →
      q ∈ keysOf visits := by
    intro q hq
    rcases mem_keysOf_runVisits visits _ q false hq with h | h
    · rw [keysOf_fileWalkFrom] at h
      obtain ⟨v, hv⟩ := mem_of_mem_keysOf _ q h
      have hl := lookupKey_of_mem_nodup _ q v hndsnap hv
      exact List.mem_map_of_mem Prod.fst
        (visit_of_lookup_newTracking_collect ft visits false q v hft hvs hl)
    · exact h
  have visitmode : ∀ p s, (p, s) ∈ visits →
      lookupKey (collectFiles (newTracking (collectFiles ft visits false)) visits false) p
        = some (s, FileMode.untouched) := by
    intro p s hmem
    have h1 := lookupKey_runVisits_of_mem visits
      (fileWalkFrom (newTracking (collectFiles ft visits false))) p s false hvs hmem
    have h2 : lookupKey (fileWalkFrom (newTracking (collectFiles ft visits false))) p
        = some (s, FileMode.deleted) := by
      rw [lookupKey_fileWalkFrom,
        lookup_newTracking_collect_of_visit ft visits false p s hft hvs hmem]
      rfl
    rw [h2] at h1
    simpa [modeFor] using h1
  refine ⟨?_, ?_⟩
  · apply fromFiles_eq_nil
    intro e he
    have hl := lookupKey_of_mem_nodup _ e.1 e.2 hnd2 he
    have hq : e.1 ∈ keysOf visits := keysub e.1 (mem_keysOf_of_lookupKey _ e.1 e.2 hl)
    obtain ⟨s0, hs0⟩ := mem_of_mem_keysOf visits e.1 hq
    have hv := visitmode e.1 s0 hs0
    rw [hl] at hv
    exact congrArg Prod.snd (Option.some.inj hv)
  · intro p
    rw [lookupKey_newTracking _ p hnd2]
    by_cases hp : p ∈ keysOf visits
    · obtain ⟨s0, hs0⟩ := mem_of_mem_keysOf visits p hp
      rw [visitmode p s0 hs0, Option.some_bind, if_neg (by simp),
        lookup_newTracking_collect_of_visit ft visits false p s0 hft hvs hs0]
    · have h1 := lookupKey_runVisits_of_not_mem visits
        (fileWalkFrom (newTracking (collectFiles ft visits false))) p false hp
      rw [show collectFiles (newTracking (collectFiles ft visits false)) visits false
          = runVisits false (fileWalkFrom (newTracking (collectFiles ft visits false))) visits
          from rfl, h1, lookupKey_fileWalkFrom]
      cases hsn : lookupKey (newTracking (collectFiles ft visits false)) p with
      | none => rfl
      | some s =>
          exact absurd (List.mem_map_of_mem Prod.fst
            (visit_of_lookup_newTracking_collect ft visits false p s hft hvs hsn)) hp

/-- C4 witness: one tracked file rescanned with the same content — the
second plan is empty and the snapshot lookups agree. -/
theorem c4_idempotence_witness :
    FileUpdate.fromFiles
        (collectFiles (newTracking (collectFiles [(["a.txt"], FileState.file "h1")]
          [(["a.txt"], FileState.file "h1")] false)) [(["a.txt"], FileState.file "h1")] false) = []
    ∧ ∀ p, lookupKey (newTracking
          (collectFiles (newTracking (collectFiles [(["a.txt"], FileState.file "h1")]
            [(["a.txt"], FileState.file "h1")] false))
            [(["a.txt"], FileState.file "h1")] false)) p
        = lookupKey (newTracking (collectFiles [(["a.txt"], FileState.file "h1")]
            [(["a.txt"], FileState.file "h1")] false)) p :=
  c4_idempotence [(["a.txt"], FileState.file "h1")] [(["a.txt"], FileState.file "h1")]
    (List.nodup_singleton (["a.txt"] : FPath)) (List.nodup_singleton (["a.txt"] : FPath))

/-! ### The scan with its failure modes (deploy.rs:177-201)

The walker's callback receives a `Result<DirEntry, Error>`.  An `Err`
entry is skipped with `WalkState::Continue` and no other effect (and
nothing is printed).  For an `Ok` entry that is a regular file the
callback opens and hashes it with `fs::File::open(path).unwrap()` and
`io::copy(..).unwrap()`: a failure to open or read makes the `unwrap`
panic, which tears down the run instead of skipping the entry.  A scan
event is one callback invocation; `ScanEvent.file` carries `some hash`
when opening and hashing succeeds and `none` when it fails. -/

/-- One invocation of the parallel walker's callback. -/
inductive ScanEvent where
  | walkErr
  | file (path : FPath) (hashResult : Option String)
  | dir (path : FPath)
deriving DecidableEq, Repr

/-- The body of the closure in `DeployCommand::collect_files`
(deploy.rs:181-200).  `Except.error ()` is the panic of the `unwrap`
calls on `fs::File::open` / `io::copy`. -/
def scanStep (force : Bool) (t : FileWalk) : ScanEvent → Except Unit FileWalk
  | .walkErr => .ok t
  | .file _ none => .error ()
  | .file p (some h) => .ok (FileWalk.update t p (FileState.file h) force)
  | .dir p => .ok (FileWalk.update t p FileState.directory force)

/-- The scan as the sequence of callback invocations, with the panic
aborting it. -/
def runScan (force : Bool) : FileWalk → List ScanEvent → Except Unit FileWalk
  | t, [] => .ok t
  | t, e :: es =>
      match scanStep force t e with
      | .ok t1 => runScan force t1 es
      | .error x => .error x

/-- `DeployCommand::collect_files` over the full event stream. -/
def collectFilesE (ft : FilesTracking) (events : List ScanEvent) (force : Bool) :
    Except Unit FileWalk :=
  runScan force (fileWalkFrom ft) events

/-- C5 counterexample: a scan whose single entry is a file that cannot be
opened for hashing.  The claim says such a failure is logged and the entry
skipped without aborting the scan; the code calls
`fs::File::open(path).unwrap()` (deploy.rs:189), so the failure panics and
the scan aborts. -/
theorem c5_scan_failure_counterexample :
    collectFilesE [] [ScanEvent.file ["a.txt"] none] false = Except.error () := rfl

/-- C5 amended.  A walker-level per-entry error (`Err` from the iterator,
deploy.rs:182-184) is skipped silently: the run continues and the table is
untouched, so the entry's seeded `Deleted` tag survives and no record is
inserted.  An open/read failure while hashing a file, however, panics and
aborts the whole scan (deploy.rs:189-190) instead of being logged and
skipped. -/
theorem c5_scan_failure (ft : FilesTracking) (ev1 ev2 : List ScanEvent) (force : Bool) :
    (collectFilesE ft (ev1 ++ ScanEvent.walkErr :: ev2) force
      = collectFilesE ft (ev1 ++ ev2) force)
    ∧ (∀ p, ¬ collectFilesE ft ev1 force = Except.error () →
        collectFilesE ft (ev1 ++ ScanEvent.file p none :: ev2) force = Except.error ()) := by
  have happ : ∀ (l1 l2 : List ScanEvent) (t : FileWalk),
      runScan force t (l1 ++ l2)
        = match runScan force t l1 with
          | .ok t1 => runScan force t1 l2
          | .error x => .error x := by
    intro l1
    induction l1 with
    | nil => intro l2 t; rfl
    | cons e l1 ih =>
        intro l2 t
        rw [List.cons_append, runScan, runScan]
        cases scanStep force t e with
        | ok t1 => exact ih l2 t1
        | error x => rfl
  constructor
  · rw [collectFilesE, collectFilesE, happ, happ]
    cases runScan force (fileWalkFrom ft) ev1 with
    | ok t1 => rfl
    | error x => rfl
  · intro p hok
    rw [collectFilesE, happ]
    cases hr : runScan force (fileWalkFrom ft) ev1 with
    | ok t1 => rfl
    | error x =>
        cases x
        exact absurd hr hok

/-- C5 amended witness: one failing-walk event between two good visits
leaves the scan equal to the scan without it, and an unreadable file
aborts the scan after one good visit. -/
theorem c5_scan_failure_witness :
    (collectFilesE [] ([ScanEvent.file ["a.txt"] (some "h1")] ++ ScanEvent.walkErr
        :: [ScanEvent.dir ["d"]]) false
      = collectFilesE [] ([ScanEvent.file ["a.txt"] (some "h1")] ++ [ScanEvent.dir ["d"]]) false)
    ∧ collectFilesE [] ([ScanEvent.file ["a.txt"] (some "h1")]
        ++ ScanEvent.file ["b.txt"] none :: [ScanEvent.dir ["d"]]) false = Except.error () :=
  ⟨(c5_scan_failure [] [ScanEvent.file ["a.txt"] (some "h1")] [ScanEvent.dir ["d"]] false).1,
   (c5_scan_failure [] [ScanEvent.file ["a.txt"] (some "h1")] [ScanEvent.dir ["d"]] false).2
     ["b.txt"] (fun h => Except.noConfusion h)⟩

/-! ### The remote session (ftp.rs; deploy.rs:209-279)

The remote store is modelled as a set of existing absolute directories
and files (lists of name components from the root) plus the session's
current working directory.  `cwd "/"` and `cwd ".."` always succeed;
`cwd name` succeeds exactly when the directory exists; `mkdir` fails
exactly when the directory already exists (the "already exists" reply);
`rm`/`rmdir` fail when the target is absent; `put` overwrites. -/

/-- A component of a `std::path::Path` (`Component::Prefix` is Windows
only and never produced here). -/
inductive Component where
  | rootDir
  | curDir
  | parentDir
  | normal (name : String)
deriving DecidableEq, Repr

/-- One navigation command issued on the FTP session. -/
inductive FtpCmd where
  | cwdRoot
  | cwdUp
  | cwdInto (name : String)
  | mkdir (name : String)
deriving DecidableEq, Repr

/-- The remote session's state. -/
structure FtpState where
  dirs : List (List String)
  files : List (List String)
  cwd : List String
deriving DecidableEq, Repr

/-- `FtpStream::cwd("/")`. -/
def FtpState.doCwdRoot (st : FtpState) : FtpState := { st with cwd := [] }

/-- `FtpStream::cwd("..")`. -/
def FtpState.doCwdUp (st : FtpState) : FtpState := { st with cwd := st.cwd.dropLast }

/-- `FtpStream::mkdir(name)`: fails when the directory already exists. -/
def FtpState.doMkdir (st : FtpState) (name : String) : Except Unit FtpState :=
  if st.cwd ++ [name] ∈ st.dirs then .error ()
  else .ok { st with dirs := (st.cwd ++ [name]) :: st.dirs }

/-- `FtpStream::cwd(name)`: fails when the directory does not exist. -/
def FtpState.doCwdInto (st : FtpState) (name : String) : Except Unit FtpState :=
  if st.cwd ++ [name] ∈ st.dirs then .ok { st with cwd := st.cwd ++ [name] } else .error ()

/-- `FtpStream::rm(name)`: fails when the file does not exist. -/
def FtpState.doRm (st : FtpState) (name : String) : Except Unit FtpState :=
  if st.cwd ++ [name] ∈ st.files then
    .ok { st with files := st.files.erase (st.cwd ++ [name]) }
  else .error ()

/-- `FtpStream::rmdir(name)`: fails when the directory does not exist. -/
def FtpState.doRmdir (st : FtpState) (name : String) : Except Unit FtpState :=
  if st.cwd ++ [name] ∈ st.dirs then
    .ok { st with dirs := st.dirs.erase (st.cwd ++ [name]) }
  else .error ()

/-- `FtpStream::put(name, reader)`: creates or overwrites the remote file. -/
def FtpState.doPut (st : FtpState) (name : String) : FtpState :=
  { st with files := if st.cwd ++ [name] ∈ st.files then st.files
      else (st.cwd ++ [name]) :: st.files }

/-- The component loop of `cwd_or_create_recursive` (ftp.rs:21-34):
root and parent components issue a change-directory; a normal component
issues `mkdir` with its result discarded (`let _ = self.mkdir(name)`) and
then `cwd` into it, whose failure propagates.  The successful result also
carries the trace of issued commands. -/
def navigate (st : FtpState) : List Component → Except Unit (FtpState × List FtpCmd)
  | [] => .ok (st, [])
  | c :: cs =>
      match c with
      | .rootDir =>
          match navigate st.doCwdRoot cs with
          | .ok r => .ok (r.1, FtpCmd.cwdRoot :: r.2)
          | .error x => .error x
      | .curDir => navigate st cs
      | .parentDir =>
          match navigate st.doCwdUp cs with
          | .ok r => .ok (r.1, FtpCmd.cwdUp :: r.2)
          | .error x => .error x
      | .normal n =>
          match (match st.doMkdir n with | .ok s1 => s1 | .error _ => st).doCwdInto n with
          | .error x => .error x
          | .ok st2 =>
              match navigate st2 cs with
              | .ok r => .ok (r.1, FtpCmd.mkdir n :: FtpCmd.cwdInto n :: r.2)
              | .error x => .error x

/-- `FtpStreamExt::cwd_or_create_recursive` (ftp.rs:13-37): a missing
parent (`None`) just changes to the root. -/
def cwdOrCreateRecursive (st : FtpState) :
    Option (List Component) → Except Unit (FtpState × List FtpCmd)
  | none => .ok (st.doCwdRoot, [FtpCmd.cwdRoot])
  | some comps => navigate st comps

/-- The commands the claim expects for one path component: a
change-directory for root and parent components, nothing for `.`, and a
create-then-enter pair for a normal component. -/
def navCmds : Component → List FtpCmd
  | .rootDir => [.cwdRoot]
  | .curDir => []
  | .parentDir => [.cwdUp]
  | .normal n => [.mkdir n, .cwdInto n]

/-- Per-component commands, concatenated over a path. -/
def navCmdsList : List Component → List FtpCmd
  | [] => []
  | c :: cs => navCmds c ++ navCmdsList cs

theorem normalStep_ok (st : FtpState) (n : String) :
    (match st.doMkdir n with | .ok s1 => s1 | .error _ => st).doCwdInto n
      = Except.ok { st with
          dirs := if st.cwd ++ [n] ∈ st.dirs then st.dirs else (st.cwd ++ [n]) :: st.dirs,
          cwd := st.cwd ++ [n] } := by
  by_cases hmem : st.cwd ++ [n] ∈ st.dirs
  · simp [FtpState.doMkdir, FtpState.doCwdInto, hmem]
  · simp [FtpState.doMkdir, FtpState.doCwdInto, hmem]

theorem navigate_ok (st : FtpState) (cs : List Component) :
    ∃ st1, navigate st cs = Except.ok (st1, navCmdsList cs) := by
  induction cs generalizing st with
  | nil => exact ⟨st, rfl⟩
  | cons c cs ih =>
      cases c with
      | rootDir =>
          obtain ⟨st1, h⟩ := ih st.doCwdRoot
          exact ⟨st1, by simp only [navigate, h]; rfl⟩
      | curDir =>
          obtain ⟨st1, h⟩ := ih st
          exact ⟨st1, by simp only [navigate, h]; rfl⟩
      | parentDir =>
          obtain ⟨st1, h⟩ := ih st.doCwdUp
          exact ⟨st1, by simp only [navigate, h]; rfl⟩
      | normal n =>
          obtain ⟨st1, h⟩ := ih { st with
            dirs := if st.cwd ++ [n] ∈ st.dirs then st.dirs else (st.cwd ++ [n]) :: st.dirs,
            cwd := st.cwd ++ [n] }
          exact ⟨st1, by simp only [navigate, normalStep_ok, h]; rfl⟩

/-- C9.  Remote directory navigation
(`FtpStreamExt::cwd_or_create_recursive`, ftp.rs:13-37, invoked per plan
item at deploy.rs:248): walking the target's components issues exactly a
change-directory for the root and parent components, and for every normal
component a create followed by an enter; the create's result is ignored,
so the walk succeeds from any remote state — in particular creating an
already-existing directory is not an error and navigation proceeds.
A `None` parent issues a single change-directory to the root. -/
theorem c9_cwd_or_create_recursive (st : FtpState) (comps : List Component) :
    (∃ st1, cwdOrCreateRecursive st (some comps) = Except.ok (st1, navCmdsList comps))
    ∧ cwdOrCreateRecursive st none = Except.ok (st.doCwdRoot, [FtpCmd.cwdRoot]) :=
  ⟨navigate_ok st comps, rfl⟩

/-! ### The applier, `DeployCommand::upload_files` (deploy.rs:209-279) -/

/-- The applier's environment: `creds.base_path` for `creds.ftp_path`
(config/creds.rs:23-25) and the set of local files that
`File::open(&file)` (deploy.rs:260) can open. -/
structure ApplyEnv where
  basePath : List Component
  localFiles : List FPath

/-- The applier's running state: the session and the log of per-item
failures, each recorded with the attempted verb and path
(deploy.rs:266-273). -/
structure ApplyState where
  ftp : FtpState
  failLog : List (String × FPath)
deriving DecidableEq

/-- `Path::file_name` on a relative path made of normal components. -/
def fileName (p : FPath) : Option String := p.getLast?

/-- `creds.ftp_path(&file)` (config/creds.rs:23-25): join the base path
with the relative file path. -/
def ftpFullPath (env : ApplyEnv) (file : FPath) : List Component :=
  env.basePath ++ file.map Component.normal

/-- `Path::parent` on the joined path (always one component deep or more
here, so the parent drops the last component). -/
def pathParent (p : List Component) : Option (List Component) :=
  if p.isEmpty then none else some p.dropLast

/-- The remote operation the applier issues for a plan item
(deploy.rs:252-264): `Delete`+`File ↦ rm`, `Delete`+`Directory ↦ rmdir`,
`CreateOrUpdate`+`Directory ↦ mkdir`, `CreateOrUpdate`+`File ↦ put`. -/
def remoteAction (ftp1 : FtpState) (ut : FileUpdateType) (ft : FileType) (name : String) :
    Except Unit FtpState :=
  match ut, ft with
  | .delete, .file => ftp1.doRm name
  | .delete, .directory => ftp1.doRmdir name
  | .createOrUpdate, .directory => ftp1.doMkdir name
  | .createOrUpdate, .file => .ok (ftp1.doPut name)

/-- One iteration of the `for` loop of `upload_files` (deploy.rs:228-276).
A missing file name skips the item; a failure of
`cwd_or_create_recursive` or of the local `File::open` propagates with `?`
and aborts the loop; a failure of the final remote operation is caught and
appended to the failure log with the verb and path, and the loop goes
on. -/
def processItem (env : ApplyEnv) (s : ApplyState) (u : FileUpdate) : Except Unit ApplyState :=
  match fileName u.file with
  | none => .ok s
  | some name =>
      match cwdOrCreateRecursive s.ftp (pathParent (ftpFullPath env u.file)) with
      | .error x => .error x
      | .ok r =>
          if u.updateType = FileUpdateType.createOrUpdate ∧ u.fileType = FileType.file
              ∧ ¬ u.file ∈ env.localFiles then
            .error ()
          else
            match remoteAction r.1 u.updateType u.fileType name with
            | .ok ftp2 => .ok ⟨ftp2, s.failLog⟩
            | .error _ => .ok ⟨r.1, s.failLog ++ [(u.updateType.getVerb, u.file)]⟩

/-- The `for` loop of `upload_files` over the plan. -/
def runUpload (env : ApplyEnv) : ApplyState → List FileUpdate → Except Unit ApplyState
  | s, [] => .ok s
  | s, u :: us =>
      match processItem env s u with
      | .ok s1 => runUpload env s1 us
      | .error x => .error x

/-- `DeployCommand::upload_files` (deploy.rs:209-279): `cwd("/")` first,
then the loop. -/
def uploadFiles (env : ApplyEnv) (s : ApplyState) (plan : List FileUpdate) :
    Except Unit ApplyState :=
  runUpload env ⟨s.ftp.doCwdRoot, s.failLog⟩ plan

/-- C6 counterexample: a two-item plan whose first item is a
`CreateOrUpdate` of a file that cannot be opened locally.
`File::open(&file)?` (deploy.rs:260) propagates the failure with `?`, so
the whole apply loop aborts and the second item is never attempted —
contradicting "any failure while processing that item is caught … and the
applier proceeds to the next item". -/
theorem c6_apply_failure_counterexample :
    uploadFiles ⟨[], []⟩ ⟨⟨[], [], []⟩, []⟩
      [⟨["a.txt"], FileType.file, FileUpdateType.createOrUpdate⟩,
       ⟨["b"], FileType.directory, FileUpdateType.createOrUpdate⟩] = Except.error () := rfl

/-- C6 amended.  Per-item isolation holds only for the final remote
operation: when the item has a file name, navigation succeeds and — for a
file upload — the local file opens, a failure of the remote operation
(rm/rmdir/mkdir/put) is caught, logged with the attempted verb and path,
and the applier proceeds to the next item.  A failure during remote
directory navigation or while opening the local file instead aborts the
whole plan (both propagate with `?`, deploy.rs:248 and deploy.rs:260). -/
theorem c6_apply_failure_isolation (env : ApplyEnv) (s : ApplyState) (u : FileUpdate)
    (name : String) (ftp1 : FtpState) (tr : List FtpCmd)
    (hn : fileName u.file = some name)
    (hnav : cwdOrCreateRecursive s.ftp (pathParent (ftpFullPath env u.file))
      = Except.ok (ftp1, tr))
    (hloc : u.updateType = FileUpdateType.createOrUpdate → u.fileType = FileType.file →
      u.file ∈ env.localFiles)
    (hfail : remoteAction ftp1 u.updateType u.fileType name = Except.error ()) :
    processItem env s u = Except.ok ⟨ftp1, s.failLog ++ [(u.updateType.getVerb, u.file)]⟩
    ∧ ∀ rest, runUpload env s (u :: rest)
        = runUpload env ⟨ftp1, s.failLog ++ [(u.updateType.getVerb, u.file)]⟩ rest := by
  have hcond : ¬ (u.updateType = FileUpdateType.createOrUpdate ∧ u.fileType = FileType.file
      ∧ ¬ u.file ∈ env.localFiles) := by
    rintro ⟨h1, h2, h3⟩
    exact h3 (hloc h1 h2)
  have hp : processItem env s u
      = Except.ok ⟨ftp1, s.failLog ++ [(u.updateType.getVerb, u.file)]⟩ := by
    have h1 : processItem env s u
        = if u.updateType = FileUpdateType.createOrUpdate ∧ u.fileType = FileType.file
              ∧ ¬ u.file ∈ env.localFiles then Except.error ()
          else match remoteAction ftp1 u.updateType u.fileType name with
            | Except.ok ftp2 => Except.ok ⟨ftp2, s.failLog⟩
            | Except.error _ =>
                Except.ok ⟨ftp1, s.failLog ++ [(u.updateType.getVerb, u.file)]⟩ := by
      unfold processItem
      rw [hn, hnav]
    rw [h1, if_neg hcond, hfail]
  exact ⟨hp, fun rest => by rw [runUpload, hp]⟩

/-- C6 amended witness: deleting a file that is absent on the remote is a
caught failure — the item is logged with verb "delete" and its path, and
the loop continues past it. -/
theorem c6_apply_failure_isolation_witness :
    processItem ⟨[], []⟩ ⟨⟨[], [], []⟩, []⟩ ⟨["a.txt"], FileType.file, FileUpdateType.delete⟩
      = Except.ok ⟨⟨[], [], []⟩, [] ++ [(FileUpdateType.delete.getVerb, ["a.txt"])]⟩
    ∧ ∀ rest, runUpload ⟨[], []⟩ ⟨⟨[], [], []⟩, []⟩
        (⟨["a.txt"], FileType.file, FileUpdateType.delete⟩ :: rest)
        = runUpload ⟨[], []⟩ ⟨⟨[], [], []⟩, [] ++ [(FileUpdateType.delete.getVerb, ["a.txt"])]⟩
          rest :=
  c6_apply_failure_isolation ⟨[], []⟩ ⟨⟨[], [], []⟩, []⟩
    ⟨["a.txt"], FileType.file, FileUpdateType.delete⟩ "a.txt" ⟨[], [], []⟩ [] rfl rfl
    (fun h => FileUpdateType.noConfusion h) rfl

/-- C10.  For a path tracked by the prior snapshot and never visited, the
plan's one action for it is a `Delete` whose file type is
`FileType::from` of the state recorded in the snapshot (preserved by the
`Deleted` seeding, deploy.rs:60-72 and deploy.rs:112-129) — not anything
recomputed from the current filesystem; and the applier dispatches on
exactly that type, issuing `rm` for a tracked `File` and `rmdir` for a
tracked `Directory` (deploy.rs:252-263). -/
theorem c10_delete_type_from_snapshot (ft : FilesTracking)
    (visits : List (FPath × FileState)) (force : Bool) (p : FPath) (s : FileState)
    (hnd : NodupKeys ft) (hmem : lookupKey ft p = some s) (hnv : ¬ p ∈ keysOf visits) :
    (FileUpdate.fromFiles (collectFiles ft visits force)).filter
        (fun u => decide (u.file = p))
      = [⟨p, FileType.ofState s, FileUpdateType.delete⟩]
    ∧ ∀ ftp name, remoteAction ftp FileUpdateType.delete (FileType.ofState s) name
        = (match s with
           | FileState.file _ => ftp.doRm name
           | FileState.directory => ftp.doRmdir name) := by
  refine ⟨plan_filter_at_unvisited ft visits force p s hnd hmem hnv, ?_⟩
  intro ftp name
  cases s <;> rfl

/-- C10 witness: a tracked directory `d` that disappeared — the single
planned action for it is `Delete` with type `Directory`, and the applier
would issue `rmdir` for it. -/
theorem c10_delete_type_from_snapshot_witness :
    (FileUpdate.fromFiles (collectFiles [(["d"], FileState.directory)] [] false)).filter
        (fun u => decide (u.file = ["d"]))
      = [⟨["d"], FileType.ofState FileState.directory, FileUpdateType.delete⟩]
    ∧ ∀ ftp name, remoteAction ftp FileUpdateType.delete
          (FileType.ofState FileState.directory) name
        = (match FileState.directory with
           | FileState.file _ => ftp.doRm name
           | FileState.directory => ftp.doRmdir name) :=
  c10_delete_type_from_snapshot [(["d"], FileState.directory)] [] false ["d"]
    FileState.directory (List.nodup_singleton (["d"] : FPath)) rfl (List.not_mem_nil _)

/-! ### The snapshot store and the overall run
(tracking/mod.rs:47-84; deploy.rs:283-346)

The snapshot file is modelled as `Option FilesTracking`: `none` when no
file exists on disk, `some t` for a file whose JSON contents parse to
`t` (serialization is the identity on the parsed value, so "byte
identical" is equality of the stored value). -/

/-- `TrackingFileLoder::load_or_create` for `FilesTracking`
(tracking/mod.rs:48-73): an existing file is parsed and returned and the
disk is untouched; a missing file yields the default (empty) value, which
is written out.  Result: (returned value, snapshot file after the call). -/
def loadOrCreateTracking : Option FilesTracking → FilesTracking × Option FilesTracking
  | some t => (t, some t)
  | none => ([], some [])

/-- The mode flags of `DeployCommand` (deploy.rs:132-157) that reach the
core. -/
structure DeployFlags where
  force : Bool
  dry : Bool
  noUpload : Bool

/-- `DeployCommand::run` (deploy.rs:283-346), restricted to its effect on
the snapshot file and on whether `upload_files` is invoked: load (or
create) the tracking file, scan, plan; when `dry` is not set, invoke
`upload_files` exactly when `no_upload` is not set and the plan is
non-empty, and persist the new snapshot; when `dry` is set, do neither.
Result: (snapshot file after the run, whether `upload_files` ran). -/
def deployRun (flags : DeployFlags) (fsBefore : Option FilesTracking)
    (visits : List (FPath × FileState)) : Option FilesTracking × Bool :=
  let lt := loadOrCreateTracking fsBefore
  let files := collectFiles lt.1 visits flags.force
  let updates := FileUpdate.fromFiles files
  if flags.dry = false then
    (some (newTracking files), !flags.noUpload && !updates.isEmpty)
  else (lt.2, false)

/-- C8.  Snapshot store load (`load_or_create`, tracking/mod.rs:48-73):
with no snapshot file on disk it returns the empty snapshot and persists
one; with an existing file it returns the parsed contents and leaves the
file untouched; and re-running it on the file it just created changes
nothing, so creation is idempotent and never overwrites an existing
file. -/
theorem c8_load_or_create :
    loadOrCreateTracking none = ([], some [])
    ∧ (∀ t, loadOrCreateTracking (some t) = (t, some t))
    ∧ ∀ fs, (loadOrCreateTracking (loadOrCreateTracking fs).2).2
        = (loadOrCreateTracking fs).2 := by
  refine ⟨rfl, fun t => rfl, fun fs => ?_⟩
  cases fs <;> rfl

/-- C7 counterexample: a dry run starting with no snapshot file on disk.
`FilesTracking::load_or_create` (deploy.rs:294, tracking/mod.rs:60-72)
creates and writes an empty snapshot file before the `dry` flag is ever
consulted, so after the run a snapshot file exists where none did — the
persisted state is not byte-identical to its pre-run state in the
no-file case. -/
theorem c7_dry_run_counterexample :
    (deployRun ⟨false, true, false⟩ none []).1 = some ([] : FilesTracking)
    ∧ ¬ (deployRun ⟨false, true, false⟩ none []).1 = (none : Option FilesTracking) :=
  ⟨rfl, fun h => Option.noConfusion h⟩

/-- C7 amended.  With `dry = true` the applier is never invoked and the
snapshot file is not overwritten by the run: if a snapshot file existed
before the run it is byte-identical afterwards; if none existed, the
loading step itself has already created an empty one (a side effect the
dry flag does not suppress). -/
theorem c7_dry_run_purity (flags : DeployFlags) (fsBefore : Option FilesTracking)
    (visits : List (FPath × FileState)) (hdry : flags.dry = true) :
    (deployRun flags fsBefore visits).2 = false
    ∧ (∀ t, fsBefore = some t → (deployRun flags fsBefore visits).1 = some t)
    ∧ (fsBefore = none → (deployRun flags fsBefore visits).1 = some []) := by
  have hcond : ¬ (flags.dry = false) := by rw [hdry]; exact fun h => Bool.noConfusion h
  refine ⟨?_, ?_, ?_⟩
  · show (deployRun flags fsBefore visits).2 = false
    simp only [deployRun, if_neg hcond]
  · intro t ht
    subst ht
    simp only [deployRun, if_neg hcond, loadOrCreateTracking]
  · intro ht
    subst ht
    simp only [deployRun, if_neg hcond, loadOrCreateTracking]

/-- C7 amended witness: a dry run over a snapshot file tracking one path
leaves the file byte-identical and never invokes the applier. -/
theorem c7_dry_run_purity_witness :
    (deployRun ⟨false, true, false⟩ (some [(["a.txt"], FileState.file "h1")]) []).2 = false
    ∧ (∀ t, (some [(["a.txt"], FileState.file "h1")] : Option FilesTracking) = some t →
        (deployRun ⟨false, true, false⟩ (some [(["a.txt"], FileState.file "h1")]) []).1
          = some t)
    ∧ ((some [(["a.txt"], FileState.file "h1")] : Option FilesTracking) = none →
        (deployRun ⟨false, true, false⟩ (some [(["a.txt"], FileState.file "h1")]) []).1
          = some []) :=
  c7_dry_run_purity ⟨false, true, false⟩ (some [(["a.txt"], FileState.file "h1")]) [] rfl

end FtpDeploy
